import Mathlib

/-
  Verification of the flow-insensitive value-dependency engine of the
  Tracer-X KLEE symbolic virtual machine (src/lib/Core/Dependency.h).

  The development shallowly embeds the data model of Dependency.h:
  symbolic expressions, shadow-array rewriting, allocations (versioned
  and environment), versioned values, the relation containers of a
  Dependency node, the abstract transition function `execute`, the
  allocation graph, and the store projection `getStoredExpressions`.
  Method bodies that the repository keeps in the (absent) Dependency.cpp
  are modelled from the specification and are marked as such in their
  doc comments.
-/

/-- Symbolic expressions (klee::Expr, as used by Dependency.h): opaque
immutable terms with structural equality.  `const` is a ConstantExpr
carrying its unsigned integer value, `read` is an array read (the array
is identified by its name, the second argument is the index expression),
and `binop` is any kind-tagged binary expression, the `Nat` tag standing
for the operator kind together with its attributes. -/
inductive Expr where
| const : Nat → Expr
| read : String → Expr → Expr
| binop : Nat → Expr → Expr → Expr
deriving DecidableEq

/-- From src/lib/Core/Dependency.h lines 58-60: the shadow of an array
name is the name with the prefix "__shadow__" prepended. -/
def getShadowName (name : String) : String := "__shadow__" ++ name

/-- Modelled from the spec: the body of ShadowArray::getShadowExpression
is not under src/ (only its declaration, Dependency.h lines 55-56).  Per
the spec, the rewrite returns the expression with every array reference
whose array is a member of the replacement set replaced by its shadow;
the process-wide registry maps a registered original name to
getShadowName of that name, and a missing mapping (an unregistered
array) leaves the sub-term intact.  Binary kinds are rebuilt preserving
the operator kind, as createBinaryOfSameKind requires. -/
def getShadowExpression (registered : List String) (replacements : List String) :
    Expr → Expr
| Expr.const c => Expr.const c
| Expr.read a i =>
    if a ∈ replacements ∧ a ∈ registered then
      Expr.read (getShadowName a) (getShadowExpression registered replacements i)
    else
      Expr.read a (getShadowExpression registered replacements i)
| Expr.binop k l r =>
    Expr.binop k (getShadowExpression registered replacements l)
      (getShadowExpression registered replacements r)

/-- C9 counterexample: with the arrays x and __shadow__x both registered
and both in the replacement set, rewriting Read(x, 0) twice yields
Read(__shadow____shadow__x, 0), which differs from the single rewrite
Read(__shadow__x, 0); shadow rewriting is not idempotent as claimed. -/
theorem shadow_idempotent_counterexample :
    getShadowExpression ["x", "__shadow__x"] ["x", "__shadow__x"]
        (getShadowExpression ["x", "__shadow__x"] ["x", "__shadow__x"]
          (Expr.read "x" (Expr.const 0)))
      ≠ getShadowExpression ["x", "__shadow__x"] ["x", "__shadow__x"]
          (Expr.read "x" (Expr.const 0)) := by
  decide

/-- C9 (amended): shadow rewriting is idempotent provided the shadow
name of no array in the replacement set is itself a member of the
replacement set: for every such R and every expression e,
getShadowExpression (getShadowExpression e R) R = getShadowExpression e R. -/
theorem shadow_idempotent_of_no_shadow_in_replacements
    (registered R : List String) (h : ∀ a ∈ R, getShadowName a ∉ R) (e : Expr) :
    getShadowExpression registered R (getShadowExpression registered R e)
      = getShadowExpression registered R e := by
  induction e with
  | const c => rfl
  | read a i ih =>
      by_cases hc : a ∈ R ∧ a ∈ registered
      · rw [getShadowExpression, if_pos hc, getShadowExpression, if_neg, ih]
        intro hcon
        exact h a hc.1 hcon.1
      · rw [getShadowExpression, if_neg hc, getShadowExpression, if_neg hc, ih]
  | binop k l r ihl ihr =>
      rw [getShadowExpression, getShadowExpression, ihl, ihr]

/-- C9 witness: the amended idempotence theorem applied at the concrete
registered set \x7b x \x7d, replacement set \x7b x \x7d and expression
Read(x, 0). -/
theorem shadow_idempotent_witness :
    getShadowExpression ["x"] ["x"]
        (getShadowExpression ["x"] ["x"] (Expr.read "x" (Expr.const 0)))
      = getShadowExpression ["x"] ["x"] (Expr.read "x" (Expr.const 0)) :=
  shadow_idempotent_of_no_shadow_in_replacements ["x"] ["x"] (by decide)
    (Expr.read "x" (Expr.const 0))

/-- Allocation kinds, from the Kind enumeration of Dependency.h lines
76-80 (Unknown, Environment, Versioned). -/
inductive AllocKind where
| unknown : AllocKind
| environment : AllocKind
| versioned : AllocKind
deriving DecidableEq

/-- An Allocation (Dependency.h lines 63-113): a core flag initialised
false, an allocation site (an LLVM value, modelled by an identifier),
and a base-address expression. -/
structure Allocation where
  kind : AllocKind
  core : Bool
  site : Nat
  address : Expr
deriving DecidableEq

/-- From Dependency.h line 93: an allocation has a constant address iff
its address expression is a ConstantExpr. -/
def Allocation.hasConstantAddress (a : Allocation) : Bool :=
  match a.address with
  | Expr.const _ => true
  | _ => false

/-- From Dependency.h lines 95-97: getUIntAddress dyn_casts the address
to ConstantExpr and takes its zero-extended value.  The dyn_cast yields
a null pointer when the address is not constant; the null dereference on
that branch is modelled by `none`, so the function is total here and its
failure branch is observable. -/
def Allocation.getUIntAddress (a : Allocation) : Option Nat :=
  match a.address with
  | Expr.const v => some v
  | _ => none

/-- C10: getUIntAddress is well-defined (its dyn_cast succeeds, so no
null pointer is dereferenced) exactly when hasConstantAddress holds of
the same allocation. -/
theorem getUIntAddress_isSome_iff_hasConstantAddress (a : Allocation) :
    (a.getUIntAddress).isSome = a.hasConstantAddress := by
  cases a with
  | mk kind core site address =>
      cases address <;> rfl

/-- From Dependency.h lines 133-141: constructing an environment
allocation.  The static member canonicalAllocation (the canonical site)
is threaded explicitly: when it is unset the caller-supplied site fixes
it, otherwise the stored site of the new allocation is the canonical
site and the caller-supplied site is discarded.  The address is stored
unchanged.  Returns the allocation and the updated canonical site. -/
def mkEnvironmentAllocation (canonicalAllocation : Option Nat) (site : Nat)
    (address : Expr) : Allocation × Option Nat :=
  match canonicalAllocation with
  | none =>
      (⟨AllocKind.environment, false, site, address⟩, some site)
  | some c =>
      (⟨AllocKind.environment, false, c, address⟩, some c)

/-- Modelled from the spec: the body of
EnvironmentAllocation::hasAllocationSite is not under src/ (only its
declaration, Dependency.h line 147).  Per the spec, the identity test
for an environment allocation ignores the caller-supplied site and
matches any site so long as the address is equal to the environment
address held by the allocation. -/
def envHasAllocationSite (a : Allocation) (s : Nat) (address : Expr) : Bool :=
  address == a.address

/-- C6 counterexample: two environment allocations created with the
different caller-supplied sites 0 and 1 and the distinct addresses 5 and
7; a1.hasAllocationSite(a2.site, a2.address) is false because the
address test fails, refuting the claim that it is always true. -/
theorem env_hasAllocationSite_counterexample :
    (mkEnvironmentAllocation none 0 (Expr.const 5)).1.site = 0 ∧
      ((mkEnvironmentAllocation
          (mkEnvironmentAllocation none 0 (Expr.const 5)).2 1 (Expr.const 7)).1.address
        = Expr.const 7) ∧
      envHasAllocationSite (mkEnvironmentAllocation none 0 (Expr.const 5)).1
        (mkEnvironmentAllocation
          (mkEnvironmentAllocation none 0 (Expr.const 5)).2 1 (Expr.const 7)).1.site
        (mkEnvironmentAllocation
          (mkEnvironmentAllocation none 0 (Expr.const 5)).2 1 (Expr.const 7)).1.address
        = false := by
  decide

/-- C6 (amended): for any two environment allocations created with any
caller-supplied sites (in particular different ones) but the same
address, a1.hasAllocationSite(a2.site, a2.address) is true: the first
environment allocation fixes the canonical site, the second aliases it,
and the identity test ignores the caller-supplied site, requiring only
address equality. -/
theorem env_hasAllocationSite_same_address (canonical : Option Nat)
    (s1 s2 : Nat) (address : Expr) :
    envHasAllocationSite (mkEnvironmentAllocation canonical s1 address).1
      (mkEnvironmentAllocation
        (mkEnvironmentAllocation canonical s1 address).2 s2 address).1.site
      (mkEnvironmentAllocation
        (mkEnvironmentAllocation canonical s1 address).2 s2 address).1.address
      = true := by
  cases canonical <;> simp [mkEnvironmentAllocation, envHasAllocationSite]

/-- A VersionedValue (Dependency.h lines 160-192): an LLVM value
(modelled by an identifier), its value expression, and a core flag. -/
structure VersionedValue where
  value : Nat
  valueExpr : Expr
  core : Bool
deriving DecidableEq

/-- The value expression of a versioned value (Dependency.h line 178). -/
def VersionedValue.getExpression (v : VersionedValue) : Expr := v.valueExpr

/-- A concrete-store entry: the allocation site paired with the unsigned
integer key of the constant address, mapped to the pair of address
expression and value expression (Dependency.h lines 477-480:
ConcreteStoreMap and ConcreteStore flattened to a list). -/
def ConcreteStoreEntry : Type := (Nat × Nat) × (Expr × Expr)

/-- A symbolic-store entry: the allocation site mapped to the pair of
address expression and value expression (Dependency.h lines 479-481:
SymbolicStoreMap and SymbolicStore flattened to a list). -/
def SymbolicStoreEntry : Type := Nat × (Expr × Expr)

/-- Modelled from the spec: the body of Dependency::getStoredExpressions
is not under src/ (only its declaration, Dependency.h lines 623-625).
Per the spec it walks the stores relation (given here as the list of
current pairs of allocation and stored versioned value); when coreOnly
is set it keeps only pairs whose allocation is a member of the core
allocation set and whose value is core-marked, and rewrites the emitted
address and value expressions through getShadowExpression with the
replacement set; every kept pair with a constant address goes to the
concrete store keyed by its site and the unsigned value of the address,
and every kept pair with a non-constant address is appended to the
symbolic store under its site, preserving the iteration order. -/
def getStoredExpressions (registered replacements : List String)
    (coreAllocations : List Allocation) (coreOnly : Bool) :
    List (Allocation × VersionedValue) →
      List ConcreteStoreEntry × List SymbolicStoreEntry
| [] => ([], [])
| (a, v) :: rest =>
    let tail := getStoredExpressions registered replacements coreAllocations
      coreOnly rest
    if coreOnly ∧ ¬(a ∈ coreAllocations ∧ v.core = true) then tail
    else
      let addressExpr := if coreOnly then
          getShadowExpression registered replacements a.address
        else a.address
      let valueExpr := if coreOnly then
          getShadowExpression registered replacements v.getExpression
        else v.getExpression
      match a.getUIntAddress with
      | some k => (((a.site, k), (addressExpr, valueExpr)) :: tail.1, tail.2)
      | none => (tail.1, (a.site, (addressExpr, valueExpr)) :: tail.2)

/-- The unsigned value of a constant address, with default 0; used only
to state the partition theorems. -/
def constAddressValue (a : Allocation) : Nat :=
  (a.getUIntAddress).getD 0

/-- C4: with coreOnly unset, getStoredExpressions partitions the stores
relation by address constancy: the concrete store consists exactly of
the pairs with a constant address, each contributing its site, the
unsigned value of the address, the address expression and the value
expression, in order; the symbolic store consists exactly of the pairs
with a non-constant address, each contributing its site, address
expression and value expression, in order; no pair appears in both. -/
theorem getStoredExpressions_partitions_by_address_constancy
    (registered replacements : List String) (coreAllocations : List Allocation)
    (storesList : List (Allocation × VersionedValue)) :
    getStoredExpressions registered replacements coreAllocations false storesList
      = ((storesList.filter (fun e => e.1.hasConstantAddress)).map
          (fun e => ((e.1.site, constAddressValue e.1),
            (e.1.address, e.2.getExpression))),
         (storesList.filter (fun e => !e.1.hasConstantAddress)).map
          (fun e => (e.1.site, (e.1.address, e.2.getExpression)))) := by
  induction storesList with
  | nil => rfl
  | cons head rest ih =>
      obtain ⟨a, v⟩ := head
      cases ha : a.getUIntAddress with
      | some k =>
          have hc : a.hasConstantAddress = true := by
            rw [← getUIntAddress_isSome_iff_hasConstantAddress, ha]
            rfl
          have hk : constAddressValue a = k := by
            rw [constAddressValue, ha]
            rfl
          simp [getStoredExpressions, ha, hc, hk, ih]
      | none =>
          have hc : a.hasConstantAddress = false := by
            rw [← getUIntAddress_isSome_iff_hasConstantAddress, ha]
            rfl
          simp [getStoredExpressions, ha, hc, ih]

/-- C5: with coreOnly set, getStoredExpressions emits an entry for a
stores pair exactly when its allocation is a member of the core
allocation set and its value is core-marked, and every emitted address
and value expression is the getShadowExpression rewrite (under the
caller-supplied replacement set) of the original, the constant/symbolic
split and ordering being as in the coreOnly-unset case. -/
theorem getStoredExpressions_coreOnly_filter_and_shadow
    (registered replacements : List String) (coreAllocations : List Allocation)
    (storesList : List (Allocation × VersionedValue)) :
    getStoredExpressions registered replacements coreAllocations true storesList
      = ((storesList.filter (fun e =>
            decide (e.1 ∈ coreAllocations) && e.2.core && e.1.hasConstantAddress)).map
          (fun e => ((e.1.site, constAddressValue e.1),
            (getShadowExpression registered replacements e.1.address,
             getShadowExpression registered replacements e.2.getExpression))),
         (storesList.filter (fun e =>
            decide (e.1 ∈ coreAllocations) && e.2.core && !e.1.hasConstantAddress)).map
          (fun e => (e.1.site,
            (getShadowExpression registered replacements e.1.address,
             getShadowExpression registered replacements e.2.getExpression)))) := by
  induction storesList with
  | nil => rfl
  | cons head rest ih =>
      obtain ⟨a, v⟩ := head
      by_cases hcore : a ∈ coreAllocations ∧ v.core = true
      · cases ha : a.getUIntAddress with
        | some k =>
            have hc : a.hasConstantAddress = true := by
              rw [← getUIntAddress_isSome_iff_hasConstantAddress, ha]
              rfl
            have hk : constAddressValue a = k := by
              rw [constAddressValue, ha]
              rfl
            simp [getStoredExpressions, ha, hc, hk, hcore.1, hcore.2, ih]
        | none =>
            have hc : a.hasConstantAddress = false := by
              rw [← getUIntAddress_isSome_iff_hasConstantAddress, ha]
              rfl
            simp [getStoredExpressions, ha, hc, hcore.1, hcore.2, ih]
      · have hskip : (true = true ∧ ¬(a ∈ coreAllocations ∧ v.core = true)) :=
          ⟨rfl, hcore⟩
        rw [getStoredExpressions, if_pos hskip, ih]
        rcases Decidable.not_and_iff_or_not.mp hcore with hna | hnc
        · simp [hna]
        · simp [hnc]

/-- The distinguished UNK abstract allocation (unknown memory location)
of the abstract semantics in Dependency.h lines 402-407.  Minted
allocation identifiers start at 1, so 0 is reserved for UNK. -/
def unkAllocId : Nat := 0

/-- The identifier of the @_environ global, the allocation site that
Util::isEnvironmentAllocation recognizes (Dependency.h line 496). -/
def environSiteId : Nat := 0

/-- Modelled from the spec: Util::isEnvironmentAllocation's body is not
under src/; the site is the program's environment pointer, identified by
a well-known symbol, here the fixed identifier environSiteId. -/
def isEnvironmentSite (site : Nat) : Bool := site == environSiteId

/-- The relation containers of one Dependency node (Dependency.h lines
502-530), with LLVM values, versioned values and allocations modelled by
identifiers: the equalities (value, allocation), the stores map keyed by
allocation, its inverse, the flows-to edges (source, target), the owning
lists of minted values and allocations, the set of environment
allocations, the site and address of each allocation, the basic block of
the last-executed instruction, and the counters minting fresh
identifiers. -/
structure DepState where
  nextValue : Nat
  nextAlloc : Nat
  valuesList : List Nat
  allocsList : List Nat
  envAllocs : List Nat
  allocSites : List (Nat × Nat × Expr)
  equalityList : List (Nat × Nat)
  storesMap : List (Nat × Nat)
  storageOfMap : List (Nat × Nat)
  flowsToList : List (Nat × Nat)
  incomingBlock : Option Nat
deriving DecidableEq

/-- The state of a fresh Dependency node with no relations. -/
def initialDepState : DepState :=
  ⟨0, 1, [], [], [], [], [], [], [], [], none⟩

/-- Fuel-bounded reflexive-transitive closure of the flows-to relation:
dependsStarFuel edges f v w holds when w reaches v through at most f
flows-to edges (an edge (s, t) means t depends on s). -/
def dependsStarFuel (edges : List (Nat × Nat)) : Nat → Nat → Nat → Bool
| 0, v, w => v == w
| fuel+1, v, w =>
    v == w || edges.any (fun e => e.2 == v && dependsStarFuel edges fuel e.1 w)

/-- The derived relation depends* of Dependency.h lines 363-366, with
fuel equal to the number of edges (a simple path never repeats an
edge). -/
def dependsStarB (s : DepState) (v w : Nat) : Bool :=
  dependsStarFuel s.flowsToList s.flowsToList.length v w

/-- Level-0 indirection targets (Dependency.h line 370): the allocations
m with ind(v, m, 0), i.e. equals(v2, m) for some v2 with
depends*(v, v2). -/
def ind0Targets (s : DepState) (v : Nat) : List Nat :=
  (s.equalityList.filter (fun e => dependsStarB s v e.1)).map (fun e => e.2)

/-- Lookup of the current store into an allocation. -/
def lookupStore (s : DepState) (a : Nat) : Option Nat :=
  (s.storesMap.find? (fun p => p.1 == a)).map (fun p => p.2)

/-- Level-i indirection targets (Dependency.h lines 371-372): a level
i+1 target of v is a level i target of a value stored in a level-0
target of v. -/
def indTargetsFuel (s : DepState) : Nat → Nat → List Nat
| 0, v => ind0Targets s v
| i+1, v =>
    (ind0Targets s v).flatMap (fun a =>
      match lookupStore s a with
      | some w => indTargetsFuel s i w
      | none => [])

/-- All indirection targets of a value at any level; the level is
bounded by the number of current stores, since each level consumes one
store lookup. -/
def storeTargets (s : DepState) (v : Nat) : List Nat :=
  (List.range (s.storesMap.length + 1)).flatMap (fun i => indTargetsFuel s i v)

/-- The signal ind(v, UNK_ENV_PTR, _) of Dependency.h lines 409-414: the
pointer indirectly reaches an environment allocation at some level. -/
def indToUnkEnvPtr (s : DepState) (v : Nat) : Bool :=
  (storeTargets s v).any (fun m => s.envAllocs.contains m)

/-- Modelled from the spec: Dependency::updateStore's body is not under
src/ (declaration at Dependency.h line 555).  The stores map is keyed by
allocation (std::map, Dependency.h lines 512-513), so the update
replaces any current entry for the allocation; the inverse storageOf map
records the pair as well. -/
def updateStoreState (s : DepState) (a v : Nat) : DepState :=
  { s with storesMap := (a, v) :: s.storesMap.filter (fun p => p.1 != a),
           storageOfMap := (v, a) :: s.storageOfMap }

/-- The site and address recorded for a minted allocation. -/
def allocSiteOf (s : DepState) (m : Nat) : Nat × Expr :=
  ((s.allocSites.find? (fun p => p.1 == m)).map (fun p => p.2)).getD
    (0, Expr.const 0)

/-- Modelled from the spec: Dependency::getNewAllocationVersion always
creates a fresh allocation (declaration at Dependency.h lines 538-539),
used when a destructive write demands a new version. -/
def getNewAllocationVersion (s : DepState) (site : Nat) (address : Expr) :
    Nat × DepState :=
  (s.nextAlloc,
   { s with nextAlloc := s.nextAlloc + 1,
            allocsList := s.allocsList ++ [s.nextAlloc],
            allocSites := s.allocSites ++ [(s.nextAlloc, site, address)] })

/-- Modelled from the spec: Dependency::getInitialAllocation returns the
allocation for the site and address already present, otherwise creates a
fresh one (an environment allocation when the site is the environment
site), owned by this node (declaration at Dependency.h lines 535-536). -/
def getInitialAllocation (s : DepState) (site : Nat) (address : Expr) :
    Nat × DepState :=
  match s.allocSites.find? (fun p => p.2.1 == site && p.2.2 == address) with
  | some p => (p.1, s)
  | none =>
      (s.nextAlloc,
       { s with nextAlloc := s.nextAlloc + 1,
                allocsList := s.allocsList ++ [s.nextAlloc],
                allocSites := s.allocSites ++ [(s.nextAlloc, site, address)],
                envAllocs := if isEnvironmentSite site then
                    s.envAllocs ++ [s.nextAlloc]
                  else s.envAllocs })

/-- Modelled from the spec: the allocation case of Dependency::execute
(body not under src/; abstract rule at Dependency.h lines 381-384).  A
fresh versioned value succ(v) is minted for the instruction, and the
pointer equality equals(succ(v), m) with m = getInitialAllocation(site,
address) is added only when no prior equality equals(_, m) for m
exists. -/
def executeAlloca (s : DepState) (site : Nat) (address : Expr) : DepState :=
  let r := getInitialAllocation s site address
  let sv := r.2.nextValue
  let s2 := { r.2 with nextValue := sv + 1, valuesList := r.2.valuesList ++ [sv] }
  if s2.equalityList.any (fun e => e.2 == r.1) then s2
  else { s2 with equalityList := s2.equalityList ++ [(sv, r.1)] }

/-- One destructive-update step of the store case: the target
allocation receives a fresh version (succ(m), with the site and address
of the target) and the fresh version is updated with the stored
value. -/
def storeVersionStep (storedVal : Nat) (st : DepState) (m : Nat) : DepState :=
  updateStoreState
    (getNewAllocationVersion st (allocSiteOf st m).1 (allocSiteOf st m).2).2
    (getNewAllocationVersion st (allocSiteOf st m).1 (allocSiteOf st m).2).1
    storedVal

/-- Modelled from the spec: the store case of Dependency::execute (body
not under src/; abstract rules at Dependency.h lines 389-414).  If the
pointer satisfies ind(v, UNK_ENV_PTR, _) the transition aborts with no
changes; otherwise every indirection target receives a fresh allocation
version which is updated with the stored value, and with no target at
all the store goes to UNK. -/
def executeStore (s : DepState) (ptr storedVal : Nat) : DepState :=
  if indToUnkEnvPtr s ptr then s
  else if (storeTargets s ptr).isEmpty then
    updateStoreState s unkAllocId storedVal
  else (storeTargets s ptr).foldl (storeVersionStep storedVal) s

/-- Modelled from the spec: the phi case of Dependency::execute (body
not under src/; abstract rule at Dependency.h lines 469-472 refined by
updateIncomingBlock, lines 607-609).  A fresh versioned value succ(v) is
minted; when the recorded incoming block matches an operand's
predecessor block, one flow edge from that operand alone is added;
otherwise (incoming block unknown) an edge from every operand is
added. -/
def executePhi (s : DepState) (ops : List (Nat × Nat)) : DepState :=
  let tgt := s.nextValue
  let s1 := { s with nextValue := tgt + 1, valuesList := s.valuesList ++ [tgt] }
  match s.incomingBlock with
  | some b =>
      match ops.find? (fun q => q.1 == b) with
      | some p => { s1 with flowsToList := s1.flowsToList ++ [(p.2, tgt)] }
      | none => { s1 with flowsToList := s1.flowsToList ++ ops.map (fun q => (q.2, tgt)) }
  | none => { s1 with flowsToList := s1.flowsToList ++ ops.map (fun q => (q.2, tgt)) }

/-- Modelled from the spec: Dependency::updateIncomingBlock records the
basic block of the last-executed instruction (declaration at
Dependency.h line 609). -/
def updateIncomingBlock (s : DepState) (b : Option Nat) : DepState :=
  { s with incomingBlock := b }

/-- One abstract operation on a Dependency node: an executed alloca,
store or phi instruction, an incoming-block update, or a direct
updateStore call. -/
inductive DepOp where
| alloca : Nat → Expr → DepOp
| store : Nat → Nat → DepOp
| phi : List (Nat × Nat) → DepOp
| incoming : Option Nat → DepOp
| rawStore : Nat → Nat → DepOp

/-- Application of one operation to the node state. -/
def applyDepOp (s : DepState) : DepOp → DepState
| DepOp.alloca site address => executeAlloca s site address
| DepOp.store ptr v => executeStore s ptr v
| DepOp.phi ops => executePhi s ops
| DepOp.incoming b => updateIncomingBlock s b
| DepOp.rawStore a v => updateStoreState s a v

/-- A sequence of operations applied in order. -/
def runDepOps (ops : List DepOp) (s : DepState) : DepState :=
  ops.foldl applyDepOp s

/-- C1: for every abstract state and every store whose pointer operand
satisfies ind(v, UNK_ENV_PTR, _), execute leaves every relation of the
current Dependency node unchanged — no equals, stores, storageOf or
flowsTo entry is added or removed — and no new versioned value or
allocation is created: the environment-write error is an atomic
no-op. -/
theorem execute_env_store_no_op (s : DepState) (ptr storedVal : Nat)
    (h : indToUnkEnvPtr s ptr = true) :
    (executeStore s ptr storedVal).equalityList = s.equalityList ∧
    (executeStore s ptr storedVal).storesMap = s.storesMap ∧
    (executeStore s ptr storedVal).storageOfMap = s.storageOfMap ∧
    (executeStore s ptr storedVal).flowsToList = s.flowsToList ∧
    (executeStore s ptr storedVal).valuesList = s.valuesList ∧
    (executeStore s ptr storedVal).allocsList = s.allocsList := by
  rw [executeStore, if_pos h]
  exact ⟨rfl, rfl, rfl, rfl, rfl, rfl⟩

/-- A concrete abstract state for the C1 witness: value 5 has a pointer
equality to the environment allocation 1, so a store through 5 hits the
environment. -/
def envStoreWitnessState : DepState :=
  ⟨6, 2, [5], [1], [1], [(1, 0, Expr.const 0)], [(5, 1)], [], [], [], none⟩

/-- C1 witness: in the concrete state above the pointer 5 satisfies
ind(v, UNK_ENV_PTR, _) and executing a store through it changes no
relation. -/
theorem execute_env_store_no_op_witness :
    indToUnkEnvPtr envStoreWitnessState 5 = true ∧
      ((executeStore envStoreWitnessState 5 7).equalityList
          = envStoreWitnessState.equalityList ∧
        (executeStore envStoreWitnessState 5 7).storesMap
          = envStoreWitnessState.storesMap ∧
        (executeStore envStoreWitnessState 5 7).storageOfMap
          = envStoreWitnessState.storageOfMap ∧
        (executeStore envStoreWitnessState 5 7).flowsToList
          = envStoreWitnessState.flowsToList ∧
        (executeStore envStoreWitnessState 5 7).valuesList
          = envStoreWitnessState.valuesList ∧
        (executeStore envStoreWitnessState 5 7).allocsList
          = envStoreWitnessState.allocsList) :=
  ⟨by decide, execute_env_store_no_op envStoreWitnessState 5 7 (by decide)⟩

/-- C2: when the recorded incoming block names a known predecessor (one
that the find over the phi operands resolves to the operand pair p),
executing the phi adds exactly one flowsTo edge into the fresh value
succ(v), namely from the operand associated with that block, and adds no
edge from any other operand and changes nothing else. -/
theorem execute_phi_known_incoming_single_edge (s : DepState)
    (ops : List (Nat × Nat)) (b : Nat) (p : Nat × Nat)
    (hb : s.incomingBlock = some b)
    (hf : ops.find? (fun q => q.1 == b) = some p) :
    executePhi s ops =
      { s with nextValue := s.nextValue + 1,
               valuesList := s.valuesList ++ [s.nextValue],
               flowsToList := s.flowsToList ++ [(p.2, s.nextValue)] } := by
  simp only [executePhi, hb, hf]

/-- A concrete state for the C2 witness: the incoming block is 1. -/
def phiWitnessState : DepState :=
  ⟨0, 1, [], [], [], [], [], [], [], [], some 1⟩

/-- C2 witness: the phi theorem applied at the concrete state above with
the operands (block 1, value 10) and (block 2, value 20); exactly the
edge from 10 into the fresh value 0 is added. -/
theorem execute_phi_known_incoming_single_edge_witness :
    phiWitnessState.incomingBlock = some 1 ∧
      [(1, 10), (2, 20)].find? (fun q => q.1 == 1) = some (1, 10) ∧
      executePhi phiWitnessState [(1, 10), (2, 20)] =
        { phiWitnessState with
            nextValue := phiWitnessState.nextValue + 1,
            valuesList := phiWitnessState.valuesList ++ [phiWitnessState.nextValue],
            flowsToList := phiWitnessState.flowsToList
              ++ [((1, 10).2, phiWitnessState.nextValue)] } :=
  ⟨rfl, by decide,
    execute_phi_known_incoming_single_edge phiWitnessState [(1, 10), (2, 20)]
      1 (1, 10) rfl (by decide)⟩

/-- The update of the stores map keeps its keys without duplicates: the
new key heads the list and every surviving entry has a different key. -/
theorem updateStoreState_keys_nodup (s : DepState) (a v : Nat)
    (h : (s.storesMap.map Prod.fst).Nodup) :
    ((updateStoreState s a v).storesMap.map Prod.fst).Nodup := by
  rw [updateStoreState]
  simp only [List.map_cons]
  refine List.nodup_cons.mpr ⟨?_, ?_⟩
  · intro hmem
    rcases List.mem_map.mp hmem with ⟨q, hq, hfst⟩
    have hqf := (List.mem_filter.mp hq).2
    rw [hfst] at hqf
    simp at hqf
  · exact List.Nodup.sublist ((List.filter_sublist _).map Prod.fst) h

/-- getInitialAllocation leaves the relations of the node unchanged:
it only consults or extends the allocation bookkeeping. -/
theorem getInitialAllocation_frame (s : DepState) (site : Nat) (address : Expr) :
    (getInitialAllocation s site address).2.equalityList = s.equalityList ∧
    (getInitialAllocation s site address).2.nextValue = s.nextValue ∧
    (getInitialAllocation s site address).2.storesMap = s.storesMap := by
  cases hf : s.allocSites.find? (fun p => p.2.1 == site && p.2.2 == address) with
  | none => simp [getInitialAllocation, hf]
  | some p => simp [getInitialAllocation, hf]

/-- executeAlloca never touches the stores map. -/
theorem executeAlloca_storesMap (s : DepState) (site : Nat) (address : Expr) :
    (executeAlloca s site address).storesMap = s.storesMap := by
  have hf := (getInitialAllocation_frame s site address).2.2
  simp only [executeAlloca]
  split <;> simpa using hf

/-- executePhi never touches the stores map. -/
theorem executePhi_storesMap (s : DepState) (ops : List (Nat × Nat)) :
    (executePhi s ops).storesMap = s.storesMap := by
  cases hb : s.incomingBlock with
  | none => simp [executePhi, hb]
  | some b =>
      cases hf : ops.find? (fun q => q.1 == b) with
      | none => simp [executePhi, hb, hf]
      | some p => simp [executePhi, hb, hf]

/-- Folding destructive-update steps over any target list keeps the
stores-map keys without duplicates. -/
theorem foldl_storeVersionStep_keys_nodup (storedVal : Nat) :
    ∀ (ts : List Nat) (s : DepState), (s.storesMap.map Prod.fst).Nodup →
      (((ts.foldl (storeVersionStep storedVal) s).storesMap.map Prod.fst)).Nodup := by
  intro ts
  induction ts with
  | nil => intro s h; exact h
  | cons m rest ih =>
      intro s h
      refine ih _ ?_
      apply updateStoreState_keys_nodup
      simpa [getNewAllocationVersion] using h

/-- executeStore keeps the stores-map keys without duplicates. -/
theorem executeStore_keys_nodup (s : DepState) (ptr storedVal : Nat)
    (h : (s.storesMap.map Prod.fst).Nodup) :
    ((executeStore s ptr storedVal).storesMap.map Prod.fst).Nodup := by
  rw [executeStore]
  split
  · exact h
  · split
    · exact updateStoreState_keys_nodup s unkAllocId storedVal h
    · exact foldl_storeVersionStep_keys_nodup storedVal (storeTargets s ptr) s h

/-- Every operation on a Dependency node keeps the stores-map keys
without duplicates. -/
theorem applyDepOp_keys_nodup (s : DepState) (op : DepOp)
    (h : (s.storesMap.map Prod.fst).Nodup) :
    ((applyDepOp s op).storesMap.map Prod.fst).Nodup := by
  cases op with
  | alloca site address =>
      have := executeAlloca_storesMap s site address
      simpa [applyDepOp, this]
  | store ptr v => exact executeStore_keys_nodup s ptr v h
  | phi ops =>
      have := executePhi_storesMap s ops
      simpa [applyDepOp, this]
  | incoming b => simpa [applyDepOp, updateIncomingBlock]
  | rawStore a v => exact updateStoreState_keys_nodup s a v h

/-- Any operation sequence keeps the stores-map keys without
duplicates. -/
theorem runDepOps_keys_nodup :
    ∀ (ops : List DepOp) (s : DepState), (s.storesMap.map Prod.fst).Nodup →
      ((runDepOps ops s).storesMap.map Prod.fst).Nodup := by
  intro ops
  induction ops with
  | nil => intro s h; exact h
  | cons op rest ih =>
      intro s h
      exact ih _ (applyDepOp_keys_nodup s op h)

/-- A pair list whose keys have no duplicates holds at most one entry
for any key. -/
theorem filter_key_length_le_one (l : List (Nat × Nat)) (a : Nat)
    (h : (l.map Prod.fst).Nodup) :
    (l.filter (fun p => p.1 == a)).length ≤ 1 := by
  induction l with
  | nil => simp
  | cons x rest ih =>
      rw [List.map_cons, List.nodup_cons] at h
      by_cases hx : x.1 = a
      · have hrest : rest.filter (fun p => p.1 == a) = [] := by
          rw [List.filter_eq_nil_iff]
          intro q hq hqa
          apply h.1
          rw [hx, ← show q.1 = a by simpa using hqa]
          exact List.mem_map_of_mem Prod.fst hq
        simp [List.filter_cons, hx, hrest]
      · have hxa : (x.1 == a) = false := by simp [hx]
        rw [List.filter_cons, hxa]
        simpa using ih h.2

/-- C7: for every Dependency node and every allocation a, at most one
stores(a, v) entry is current: after any sequence of execute and
updateStore operations starting from the fresh node, the stores relation
holds at most one entry whose key is a. -/
theorem stores_at_most_one_current (ops : List DepOp) (a : Nat) :
    ((runDepOps ops initialDepState).storesMap.filter
      (fun p => p.1 == a)).length ≤ 1 := by
  apply filter_key_length_le_one
  apply runDepOps_keys_nodup
  simp [initialDepState]

/-- C8: executing an allocation instruction with m the allocation
returned by getInitialAllocation adds the pointer equality
equals(succ(v), m) exactly when no prior equality equals(_, m) for m is
in the current state; when such an equality exists, the equality list is
left unchanged. -/
theorem execute_alloca_equals_guard (s : DepState) (site : Nat) (address : Expr) :
    (executeAlloca s site address).equalityList
      = s.equalityList ++
        (if s.equalityList.any
              (fun e => e.2 == (getInitialAllocation s site address).1)
          then []
          else [(s.nextValue, (getInitialAllocation s site address).1)]) := by
  have hf := getInitialAllocation_frame s site address
  by_cases hc : (s.equalityList.any
      (fun e => e.2 == (getInitialAllocation s site address).1)) = true
  · simp [executeAlloca, hf.1, hf.2.1, hc]
  · simp [executeAlloca, hf.1, hf.2.1, hc]

/-- A node of the allocation graph (AllocationGraph::AllocationNode,
Dependency.h lines 250-273): the wrapped allocation (by identifier), the
monotonic level (hop distance from the originating sink), and the parent
edges (by the parent node's allocation identifier).  Constructing a node
marks its allocation core (Dependency.h lines 256-259). -/
structure GNode where
  alloc : Nat
  level : Nat
  parents : List Nat
deriving DecidableEq

/-- The allocation graph (Dependency.h lines 248-324).  The coreMarked
list models the core bit of the allocation objects referenced by the
graph: whenever a node is constructed, its allocation's identifier is
added, mirroring the setAsCore call in the AllocationNode
constructor. -/
structure AllocationGraph where
  coreMarked : List Nat
  nodes : List GNode
  sinks : List Nat
deriving DecidableEq

/-- The freshly constructed graph (Dependency.h line 289). -/
def emptyAllocationGraph : AllocationGraph := ⟨[], [], []⟩

/-- Whether a node for the allocation is present (isVisited,
Dependency.h line 300). -/
def graphHasNode (g : AllocationGraph) (a : Nat) : Bool :=
  g.nodes.any (fun n => n.alloc == a)

/-- The level of the node wrapping the allocation, 0 when absent. -/
def nodeLevelOf (g : AllocationGraph) (a : Nat) : Nat :=
  ((g.nodes.find? (fun n => n.alloc == a)).map (fun n => n.level)).getD 0

/-- Modelled from the spec: AllocationGraph::addNewSink's body is not
under src/ (declaration at Dependency.h line 302).  It inserts a sink
node at level 0 unless a sink for the allocation already exists (sink
dedup by allocation identity); node construction marks the allocation
core (the constructor at Dependency.h lines 256-259). -/
def addNewSink (g : AllocationGraph) (a : Nat) : AllocationGraph :=
  if g.sinks.contains a then g
  else if graphHasNode g a then { g with sinks := g.sinks ++ [a] }
  else { coreMarked := a :: g.coreMarked,
         nodes := g.nodes ++ [⟨a, 0, []⟩],
         sinks := g.sinks ++ [a] }

/-- Creation of a node for the allocation at the given level when none
exists; node construction marks the allocation core. -/
def ensureNode (g : AllocationGraph) (a : Nat) (lvl : Nat) : AllocationGraph :=
  if graphHasNode g a then g
  else { g with coreMarked := a :: g.coreMarked, nodes := g.nodes ++ [⟨a, lvl, []⟩] }

/-- Modelled from the spec: AllocationGraph::addNewEdge's body is not
under src/ (declaration at Dependency.h line 304).  It inserts a parent
edge from the node of the source (created at target level + 1 if absent)
into the node of the target (created at level 0 if absent); no
duplicate-edge check is performed. -/
def addNewEdge (g : AllocationGraph) (source target : Nat) : AllocationGraph :=
  { ensureNode (ensureNode g target 0) source
      (nodeLevelOf (ensureNode g target 0) target + 1) with
    nodes := (ensureNode (ensureNode g target 0) source
        (nodeLevelOf (ensureNode g target 0) target + 1)).nodes.map
      (fun n => if n.alloc == target then
          { n with parents := n.parents ++ [source] }
        else n) }

/-- Modelled from the spec: AllocationGraph::consumeSinkNode's body is
not under src/ (declaration at Dependency.h line 286).  It removes every
sink whose allocation equals the given one; the removed nodes' parents
become new sinks, deduplicated against the surviving sinks and among
themselves. -/
def consumeSinkNode (g : AllocationGraph) (a : Nat) : AllocationGraph :=
  if g.sinks.contains a then
    { g with sinks :=
        g.sinks.filter (fun x => x != a) ++
          (((g.nodes.filter (fun n => n.alloc == a)).flatMap
              (fun n => n.parents)).filter
            (fun p => !(g.sinks.filter (fun x => x != a)).contains p)).dedup }
  else g

/-- Modelled from the spec: consumeSinksWithAllocations (declaration at
Dependency.h line 316) iterates consumeSinkNode over the list. -/
def consumeSinksWithAllocations (g : AllocationGraph) (l : List Nat) :
    AllocationGraph :=
  l.foldl consumeSinkNode g

/-- Modelled from the spec: Dependency::computeCoreAllocations (body not
under src/, declaration at Dependency.h line 637) ensures every
already-core allocation of the chain is in the graph, consumes the sinks
matching the node's own versioned allocations, and takes the remaining
sinks as the core allocation set.  Returns that set with the final
graph. -/
def computeCoreAllocations (g : AllocationGraph)
    (chainCoreAllocations ownAllocations : List Nat) :
    List Nat × AllocationGraph :=
  ((consumeSinksWithAllocations
      (chainCoreAllocations.foldl addNewSink g) ownAllocations).sinks,
   consumeSinksWithAllocations
      (chainCoreAllocations.foldl addNewSink g) ownAllocations)

/-- The structural invariant of the allocation graph: every sink
allocation is core-marked, every node's allocation is core-marked, and
every parent recorded in a node is core-marked. -/
def GraphInv (g : AllocationGraph) : Prop :=
  (∀ a ∈ g.sinks, a ∈ g.coreMarked) ∧
  (∀ n ∈ g.nodes, n.alloc ∈ g.coreMarked ∧ ∀ p ∈ n.parents, p ∈ g.coreMarked)

/-- A present node's allocation is core-marked. -/
theorem graphHasNode_core (g : AllocationGraph) (a : Nat) (h : GraphInv g)
    (hn : graphHasNode g a = true) : a ∈ g.coreMarked := by
  rcases List.any_eq_true.mp hn with ⟨n, hnm, hna⟩
  have := (h.2 n hnm).1
  rwa [show n.alloc = a by simpa using hna] at this

/-- addNewSink preserves the graph invariant. -/
theorem graphInv_addNewSink (g : AllocationGraph) (a : Nat) (h : GraphInv g) :
    GraphInv (addNewSink g a) := by
  rcases h with ⟨hs, hn⟩
  rw [addNewSink]
  split
  · exact ⟨hs, hn⟩
  · split
    · rename_i hnode
      refine ⟨?_, hn⟩
      intro x hx
      rcases List.mem_append.mp hx with hx | hx
      · exact hs x hx
      · have hxa : x = a := by simpa using hx
        subst hxa
        exact graphHasNode_core g x ⟨hs, hn⟩ hnode
    · constructor
      · intro x hx
        rcases List.mem_append.mp hx with hx | hx
        · exact List.mem_cons_of_mem _ (hs x hx)
        · have hxa : x = a := by simpa using hx
          subst hxa
          exact List.mem_cons_self _ _
      · intro n hnm
        rcases List.mem_append.mp hnm with hnm | hnm
        · rcases hn n hnm with ⟨h1, h2⟩
          exact ⟨List.mem_cons_of_mem _ h1,
            fun p hp => List.mem_cons_of_mem _ (h2 p hp)⟩
        · have hna : n = ⟨a, 0, []⟩ := by simpa using hnm
          subst hna
          refine ⟨List.mem_cons_self _ _, ?_⟩
          intro p hp
          simp at hp

/-- ensureNode preserves the graph invariant. -/
theorem graphInv_ensureNode (g : AllocationGraph) (a lvl : Nat)
    (h : GraphInv g) : GraphInv (ensureNode g a lvl) := by
  rcases h with ⟨hs, hn⟩
  rw [ensureNode]
  split
  · exact ⟨hs, hn⟩
  · constructor
    · exact fun x hx => List.mem_cons_of_mem _ (hs x hx)
    · intro n hnm
      rcases List.mem_append.mp hnm with hnm | hnm
      · rcases hn n hnm with ⟨h1, h2⟩
        exact ⟨List.mem_cons_of_mem _ h1,
          fun p hp => List.mem_cons_of_mem _ (h2 p hp)⟩
      · have hna : n = ⟨a, lvl, []⟩ := by simpa using hnm
        subst hna
        refine ⟨List.mem_cons_self _ _, ?_⟩
        intro p hp
        simp at hp

/-- After ensureNode the allocation is core-marked. -/
theorem ensureNode_core_mem (g : AllocationGraph) (a lvl : Nat)
    (h : GraphInv g) : a ∈ (ensureNode g a lvl).coreMarked := by
  rw [ensureNode]
  split
  · rename_i hnode
    exact graphHasNode_core g a h hnode
  · exact List.mem_cons_self _ _

/-- addNewEdge preserves the graph invariant. -/
theorem graphInv_addNewEdge (g : AllocationGraph) (source target : Nat)
    (h : GraphInv g) : GraphInv (addNewEdge g source target) := by
  have h1 := graphInv_ensureNode g target 0 h
  have hsrc := ensureNode_core_mem (ensureNode g target 0) source
    (nodeLevelOf (ensureNode g target 0) target + 1) h1
  have h2 := graphInv_ensureNode (ensureNode g target 0) source
    (nodeLevelOf (ensureNode g target 0) target + 1) h1
  rcases h2 with ⟨hs, hn⟩
  refine ⟨hs, ?_⟩
  intro n hnm
  rcases List.mem_map.mp hnm with ⟨m, hm, hmap⟩
  rcases hn m hm with ⟨hma, hmp⟩
  by_cases ht : (m.alloc == target) = true
  · rw [← hmap]
    simp only [ht, if_true]
    refine ⟨hma, ?_⟩
    intro p hp
    rcases List.mem_append.mp hp with hp | hp
    · exact hmp p hp
    · have hps : p = source := by simpa using hp
      subst hps
      exact hsrc
  · rw [← hmap]
    simp only [ht, Bool.false_eq_true, if_false]
    exact ⟨hma, hmp⟩

/-- consumeSinkNode preserves the graph invariant. -/
theorem graphInv_consumeSinkNode (g : AllocationGraph) (a : Nat)
    (h : GraphInv g) : GraphInv (consumeSinkNode g a) := by
  rcases h with ⟨hs, hn⟩
  rw [consumeSinkNode]
  split
  · refine ⟨?_, hn⟩
    intro x hx
    rcases List.mem_append.mp hx with hx | hx
    · exact hs x (List.mem_of_mem_filter hx)
    · have hx2 := List.mem_dedup.mp hx
      have hx3 := List.mem_of_mem_filter hx2
      rcases List.mem_flatMap.mp hx3 with ⟨n, hnm, hpn⟩
      exact (hn n (List.mem_of_mem_filter hnm)).2 x hpn
  · exact ⟨hs, hn⟩

/-- Folding addNewSink over any list preserves the invariant. -/
theorem graphInv_foldl_addNewSink :
    ∀ (l : List Nat) (g : AllocationGraph), GraphInv g →
      GraphInv (l.foldl addNewSink g) := by
  intro l
  induction l with
  | nil => intro g h; exact h
  | cons a rest ih => intro g h; exact ih _ (graphInv_addNewSink g a h)

/-- Folding consumeSinkNode over any list preserves the invariant. -/
theorem graphInv_foldl_consumeSinkNode :
    ∀ (l : List Nat) (g : AllocationGraph), GraphInv g →
      GraphInv (l.foldl consumeSinkNode g) := by
  intro l
  induction l with
  | nil => intro g h; exact h
  | cons a rest ih => intro g h; exact ih _ (graphInv_consumeSinkNode g a h)

/-- One operation on the allocation graph. -/
inductive GraphOp where
| newSink : Nat → GraphOp
| newEdge : Nat → Nat → GraphOp
| consumeSink : Nat → GraphOp
| consumeSinks : List Nat → GraphOp

/-- Application of one graph operation. -/
def applyGraphOp (g : AllocationGraph) : GraphOp → AllocationGraph
| GraphOp.newSink a => addNewSink g a
| GraphOp.newEdge source target => addNewEdge g source target
| GraphOp.consumeSink a => consumeSinkNode g a
| GraphOp.consumeSinks l => consumeSinksWithAllocations g l

/-- A sequence of graph operations applied in order. -/
def runGraphOps (ops : List GraphOp) (g : AllocationGraph) : AllocationGraph :=
  ops.foldl applyGraphOp g

/-- Every graph operation preserves the invariant. -/
theorem graphInv_applyGraphOp (g : AllocationGraph) (op : GraphOp)
    (h : GraphInv g) : GraphInv (applyGraphOp g op) := by
  cases op with
  | newSink a => exact graphInv_addNewSink g a h
  | newEdge source target => exact graphInv_addNewEdge g source target h
  | consumeSink a => exact graphInv_consumeSinkNode g a h
  | consumeSinks l => exact graphInv_foldl_consumeSinkNode l g h

/-- Any operation sequence preserves the invariant. -/
theorem graphInv_runGraphOps :
    ∀ (ops : List GraphOp) (g : AllocationGraph), GraphInv g →
      GraphInv (runGraphOps ops g) := by
  intro ops
  induction ops with
  | nil => intro g h; exact h
  | cons op rest ih => intro g h; exact ih _ (graphInv_applyGraphOp g op h)

/-- C3: every allocation that is a member of the core sink set produced
by computeCoreAllocations — for a graph built by any sequence of graph
operations from the empty graph — is core-marked, i.e. isCore() returns
true for it. -/
theorem core_sinks_are_core_marked (gops : List GraphOp)
    (chainCoreAllocations ownAllocations : List Nat) (a : Nat)
    (hmem : a ∈ (computeCoreAllocations (runGraphOps gops emptyAllocationGraph)
        chainCoreAllocations ownAllocations).1) :
    a ∈ (computeCoreAllocations (runGraphOps gops emptyAllocationGraph)
        chainCoreAllocations ownAllocations).2.coreMarked := by
  have hinv : GraphInv (runGraphOps gops emptyAllocationGraph) := by
    apply graphInv_runGraphOps
    exact ⟨by intro x hx; simp [emptyAllocationGraph] at hx,
           by intro n hn; simp [emptyAllocationGraph] at hn⟩
  have hinv2 : GraphInv (consumeSinksWithAllocations
      (chainCoreAllocations.foldl addNewSink
        (runGraphOps gops emptyAllocationGraph)) ownAllocations) :=
    graphInv_foldl_consumeSinkNode ownAllocations _
      (graphInv_foldl_addNewSink chainCoreAllocations _ hinv)
  exact hinv2.1 a hmem

/-- C3 witness: with the single operation of adding allocation 3 as a
sink, computeCoreAllocations yields 3 as a core sink, and 3 is
core-marked. -/
theorem core_sinks_are_core_marked_witness :
    3 ∈ (computeCoreAllocations
          (runGraphOps [GraphOp.newSink 3] emptyAllocationGraph) [] []).1 ∧
      3 ∈ (computeCoreAllocations
          (runGraphOps [GraphOp.newSink 3] emptyAllocationGraph) [] []).2.coreMarked :=
  ⟨by decide, core_sinks_are_core_marked [GraphOp.newSink 3] [] [] 3 (by decide)⟩
